import Mathlib

/-!
Shallow embedding of the DeepCaption image-captioning system
(src/model.py, src/train.py) and theorems checking its natural-language
specification against the code.

Modelling conventions:
* tensors are lists of rationals (`Vec` is one row); batched tensors are
  lists of rows, and batched pointwise torch operations become `List.map`
  or `List.zipWith` over the batch axis;
* the learned components (embedding table, LSTM / LSTMCell transition,
  linear heads, dropout, sigmoid gates) are opaque function fields of a
  structure, since the claims quantify over all weights;
* `exp` (used by `softmax` and by the inverse-sigmoid schedule of
  `train.py`) is an abstract function argument; theorems that need its
  analytic properties assume it is strictly positive / monotone, which
  keeps every definition executable;
* `torch.rand(1)` draws are an abstract stream `rand : ℕ → ℚ` indexed by
  the loop step, with the property `0 ≤ rand t < 1` assumed where needed;
* fallible code paths (`return None` in `DecoderRNN.forward`) return
  `Option`.
-/

/-- A vector (one tensor row) is a list of rationals. -/
abbrev Vec := List ℚ

/-- Elementwise sum of two equally-shaped vectors. -/
def vadd (x y : Vec) : Vec := List.zipWith (fun a b => a + b) x y

/-- Dot product of two vectors. -/
def dotProduct (w x : Vec) : ℚ := (List.zipWith (fun a b => a * b) w x).sum

/-- An `nn.Linear` layer: weight matrix rows `W`, bias `b`, applied to `x`. -/
def linearMap (W : List Vec) (b : Vec) (x : Vec) : Vec :=
  List.zipWith (fun row bi => dotProduct row x + bi) W b

/-- `nn.ReLU` applied elementwise. -/
def reluV (x : Vec) : Vec := x.map (fun v => max v 0)

/-- `nn.Softmax` over a list of logits, with `e` standing for `exp`. -/
def softmax (e : ℚ → ℚ) (xs : List ℚ) : List ℚ :=
  xs.map (fun x => e x / (xs.map e).sum)

/-- Index of the first maximal entry, auxiliary loop. -/
def argmaxAux : List ℚ → ℕ → ℕ → ℚ → ℕ
  | [], _, best, _ => best
  | x :: xs, i, best, bv =>
    if bv < x then argmaxAux xs (i + 1) i x else argmaxAux xs (i + 1) best bv

/-- `tensor.max(1)` index output: index of a maximal entry of a logit row. -/
def argmaxIdx : List ℚ → ℕ
  | [] => 0
  | x :: xs => argmaxAux xs 1 0 x

/-! ## `model.py`: `Features` and `ModelParams` -/

/-- `Features = namedtuple('Features', 'external, internal')`. -/
structure Features where
  external : List String
  internal : List String
deriving DecidableEq, Repr

/-- Python `s.split(',')` on the character list: split at every comma,
keeping empty segments. -/
def splitCommaAux : List Char → List Char → List String
  | [], cur => [String.mk cur.reverse]
  | c :: rest, cur =>
    if c = ',' then String.mk cur.reverse :: splitCommaAux rest []
    else splitCommaAux rest (c :: cur)

/-- Python `s.split(',')`. -/
def splitComma (s : String) : List String := splitCommaAux s.toList []

/-- `p.split(',') if p else []` in `ModelParams._get_features`. -/
def splitFeatures (p : String) : List String :=
  if p = "" then [] else splitComma p

/-- Characters of the path component after the last `'/'`
(the basename `os.path.splitext` works on). -/
def pyBasename (cs : List Char) : List Char :=
  cs.foldl (fun acc c => if c = '/' then [] else acc ++ [c]) []

/-- `os.path.splitext(fn)` yields a non-empty extension: there is a dot in
the basename that comes after at least one non-dot character (leading dots
of the basename never start an extension). -/
def hasExt (fn : String) : Bool :=
  ((pyBasename fn.toList).dropWhile (fun c => c = '.')).contains '.'

/-- The classification loop of `ModelParams._get_features`: each entry with
an extension is appended to `ext_feat`, the others to `int_feat`. -/
def featLoop : List String → List String × List String → List String × List String
  | [], acc => acc
  | fn :: rest, acc =>
    featLoop rest (if hasExt fn then (acc.1 ++ [fn], acc.2) else (acc.1, acc.2 ++ [fn]))

/-- `ModelParams._get_features` on a string parameter value. -/
def ModelParams.getFeaturesOf (p : String) : Features :=
  Features.mk (featLoop (splitFeatures p) ([], [])).1 (featLoop (splitFeatures p) ([], [])).2

/-- `ModelParams` fields, as set in `ModelParams.__init__` (the vocabulary
object is opaque, of an arbitrary type `V`). -/
structure ModelParams (V : Type) where
  embed_size : ℕ
  hidden_size : ℕ
  num_layers : ℕ
  batch_size : ℕ
  dropout : ℚ
  learning_rate : ℚ
  features : Features
  persist_features : Features
  encoder_dropout : ℚ
  attention : Option String
  vocab : V

/-- Coercion done by `ModelParams._update_ext_features`:
`if type(ef) is str: ef = ef.split(',')`. -/
def updateExtArg : String ⊕ List String → List String
  | Sum.inl s => splitComma s
  | Sum.inr l => l

/-- `ModelParams.update_ext_features`: replaces `self.features` by
`self.features._replace(external=ef)`. -/
def ModelParams.update_ext_features {V : Type} (p : ModelParams V)
    (ef : String ⊕ List String) : ModelParams V :=
  { p with features := Features.mk (updateExtArg ef) p.features.internal }

/-! ## `train.py`: `get_teacher_prob` -/

/-- `get_teacher_prob(k, i, beta)` from `train.py`, with `e` standing for
`np.exp`: `1.0` when `k == 0`, else `k / (k + exp(i * beta / k))`. -/
def get_teacher_prob (e : ℚ → ℚ) (k i beta : ℚ) : ℚ :=
  if k = 0 then 1 else k / (k + e (i * beta / k))

/-! ## Active batch slice -/

/-- `sum([l > t for l in lengths])`, the active slice size used by the
attention decoders at step `t`. -/
def batch_size_t (lengths : List ℕ) (t : ℕ) : ℕ :=
  (lengths.map (fun l => if t < l then 1 else 0)).sum

/-! ## `SpatialAttention` -/

/-- Parameters of `SpatialAttention`: the `image_att`, `lstm_att` and
`combined_att` linear layers (`combined_att` has a single output row). -/
structure SpatialAttention where
  image_att_w : List Vec
  image_att_b : Vec
  lstm_att_w : List Vec
  lstm_att_b : Vec
  combined_att_w : Vec
  combined_att_b : ℚ

/-- `SpatialAttention.forward` for one example: location features
`features` (locations × channels) and decoder hidden state `h`.
Computes per-location logits, softmaxes over the location axis, and
returns the weighted context `(features * alphas.unsqueeze(2)).sum(dim=1)`
together with the attention weights. -/
def SpatialAttention.forward (A : SpatialAttention) (e : ℚ → ℚ)
    (features : List Vec) (h : Vec) : Vec × List ℚ :=
  let att_img := features.map (linearMap A.image_att_w A.image_att_b)
  let att_h := linearMap A.lstm_att_w A.lstm_att_b h
  let att_logits :=
    att_img.map (fun row => dotProduct A.combined_att_w (reluV (vadd row att_h)) + A.combined_att_b)
  let alphas := softmax e att_logits
  let att_context :=
    (List.zipWith (fun f a => f.map (fun v => a * v)) features alphas).foldr vadd
      (List.replicate (features.headD []).length 0)
  (att_context, alphas)

/-- Specification form of the attention context: entry `j` is the sum over
locations of `weight * feature[j]`. -/
def attnWeightedSum (ws : List ℚ) (features : List Vec) (C : ℕ) : Vec :=
  (List.range C).map (fun j => (List.zipWith (fun w f => w * f.getD j 0) ws features).sum)

/-! ## `DecoderRNN`

Learned components of the plain decoder.  `cell` is one time-step of the
(possibly multi-layered) `nn.LSTM`, with recurrent state of an opaque type
`S` and initial state `s0` (the `states=None` zero state).  `embed` is the
token-embedding table, `linear` the vocabulary projection of output size
`vocabSize`. -/
structure Dec (S : Type) where
  embed : ℕ → Vec
  cell : Vec → S → Vec × S
  s0 : S
  linear : Vec → Vec
  vocabSize : ℕ

/-- Sequential LSTM run over a list of step inputs, returning the hidden
output of every step. -/
def lstmRun {S : Type} (cell : Vec → S → Vec × S) : S → List Vec → List Vec
  | _, [] => []
  | s, x :: xs => (cell x s).1 :: lstmRun cell (cell x s).2 xs

/-- One batched LSTM step: the batch of inputs and the batch of recurrent
states advance example by example (torch batching is data-parallel). -/
def stepB {S : Type} (d : Dec S) (inputs : List Vec) (ss : List S) :
    List Vec × List S :=
  ((List.zipWith (fun x s => d.cell x s) inputs ss).map Prod.fst,
   (List.zipWith (fun x s => d.cell x s) inputs ss).map Prod.snd)

/-- Per-policy choice of the next-step input embedding in the scheduled
branch of `DecoderRNN.forward` (`ems` is the batch of embedding rows with
the encoder feature prepended; `outs` the batch of step logits).
An unrecognized policy name yields `none`, modelling `return None`. -/
def selectNext {S : Type} (d : Dec S) (policy : String) (tp : ℚ) (rand : ℕ → ℚ)
    (ems : List (List Vec)) (t : ℕ) (outs : List Vec) : Option (List Vec) :=
  if policy = "sampled" then
    some (if rand t < tp then ems.map (fun em => em.getD (t + 1) [])
          else outs.map (fun o => d.embed (argmaxIdx o)))
  else if policy = "additive" then
    some (List.zipWith
      (fun em o => List.zipWith (fun g sm => tp * g + (1 - tp) * sm)
        (em.getD (t + 1) []) (d.embed (argmaxIdx o))) ems outs)
  else if policy = "additive_sampled" then
    some (if rand t < tp then ems.map (fun em => em.getD (t + 1) [])
          else List.zipWith
            (fun em o => List.zipWith (fun g sm => tp * g + (1 - tp) * sm)
              (em.getD (t + 1) []) (d.embed (argmaxIdx o))) ems outs)
  else none

/-- The `for t in range(seq_length - 1)` loop of the scheduled branch of
`DecoderRNN.forward`: at step `t` the batch advances one LSTM step, the
logits are projected and recorded, and the next input is the selected
embedding.  The loop is only ever reached with the empty persist
placeholder (`features.new_empty(0)`; see `DecoderRNN.forward`), for which
`torch.cat([embed_t, persist_features], 1)` is `embed_t` itself, so the
step inputs carry no persist component.  Returns the time-major list of
recorded step outputs, or `none` on an unrecognized policy
(`return None` in the source). -/
def loopB {S : Type} (d : Dec S) (policy : String) (tp : ℚ) (rand : ℕ → ℚ)
    (ems : List (List Vec)) :
    ℕ → ℕ → List Vec → List S → Option (List (List Vec))
  | _, 0, _, _ => some []
  | t, n + 1, inputs, ss =>
    match selectNext d policy tp rand ems t ((stepB d inputs ss).1.map d.linear) with
    | none => none
    | some nexts =>
      (loopB d policy tp rand ems (t + 1) n nexts (stepB d inputs ss).2).map
        (fun rest => (stepB d inputs ss).1.map d.linear :: rest)

/-- One time slice of `pack_padded_sequence(..., batch_first=True)[0]`:
keep the rows whose length exceeds `t`. -/
def packStep (lengths : List ℕ) (t : ℕ) (step : List Vec) : List Vec :=
  (step.zip lengths).filterMap (fun ol => if t < ol.2 then some ol.1 else none)

/-- `pack_padded_sequence(outputs, lengths, batch_first=True)[0]` on a
time-major sequence of batch slices starting at step `t`: the packed data
is the concatenation, step by step, of the active rows. -/
def packSteps (lengths : List ℕ) : ℕ → List (List Vec) → List Vec
  | _, [] => []
  | t, step :: rest => packStep lengths t step ++ packSteps lengths (t + 1) rest

/-- Time-major view of the first `n` columns of a batch of rows
(column `t` of the batch, for `t < n`). -/
def timeMajor : ℕ → List (List Vec) → List (List Vec)
  | 0, _ => []
  | n + 1, rows => rows.map (fun r => r.headD []) :: timeMajor n (rows.map (fun r => r.drop 1))

/-- `embeddings = torch.cat([features.unsqueeze(1), self.embed(captions)], 1)`:
per example, the encoder output becomes the synthetic first embedding,
followed by the embeddings of the caption tokens. -/
def DecoderRNN.embeddingsOf {S : Type} (d : Dec S) (feats : List Vec)
    (caps : List (List ℕ)) : List (List Vec) :=
  List.zipWith (fun f cap => f :: cap.map d.embed) feats caps

/-- The persist-feature tensor after the `no_grad` block of
`DecoderRNN.forward`: `none` models `_cat_features` returning `None`,
replaced by the 1-D empty placeholder `features.new_empty(0)` (which
`torch.cat` skips); `some pfs` models a real `(B, D)` feature tensor,
expanded over time to `(B, seq_length, D)` by
`unsqueeze(1).expand(-1, seq_length, -1)`.  For the dim-2 concatenation of
the `'always'` branch this function yields the per-example row appended at
every time step (the empty row for the skipped empty placeholder). -/
def persistRows (persist : Option (List Vec)) (B : ℕ) : List Vec :=
  match persist with
  | none => List.replicate B []
  | some pfs => pfs

/-- `DecoderRNN.forward`.  `feats` is the encoder output (one row per
example), `caps` the caption token ids (each row of width `T`,
the `captions.size(1)` of the tensor), `persist` the persist-feature
state produced by `_cat_features` (see `persistRows`), `rand` the
`torch.rand(1)` stream and `policy` the `teacher_forcing` name.

In the `'always'` branch the inputs are the embeddings concatenated with
the expanded persist features along dim 2; the packed-sequence LSTM
computes, per example, the LSTM over that example's inputs, and its
packed output is time-major.  The scheduled branch instead concatenates
the 2-D `features` (and later `embed_t`) with the persist tensor along
dim 1: when `_cat_features` produced features, that tensor was expanded
to 3-D, and `torch.cat` of a 2-D with a 3-D tensor raises, so the call
produces no output (`none`); only the empty placeholder lets the loop
run, its two `cat`s then being no-ops, after which the loop records
`seq_length - 1` step outputs, the last output column stays zero, and the
result is packed the same way. -/
def DecoderRNN.forward {S : Type} (d : Dec S) (feats : List Vec)
    (caps : List (List ℕ)) (T : ℕ) (lengths : List ℕ)
    (persist : Option (List Vec)) (rand : ℕ → ℚ) (tp : ℚ) (policy : String) :
    Option (List Vec) :=
  if policy = "always" then
    some (packSteps lengths 0 (timeMajor (T + 1)
      (List.zipWith (fun em pf => (lstmRun d.cell d.s0 (em.map (fun x => x ++ pf))).map d.linear)
        (DecoderRNN.embeddingsOf d feats caps) (persistRows persist feats.length))))
  else
    match persist with
    | some _ => none
    | none =>
      (loopB d policy tp rand (DecoderRNN.embeddingsOf d feats caps) 0 T
          feats (List.replicate feats.length d.s0)).map
        (fun outsT => packSteps lengths 0
          (outsT ++ [List.replicate feats.length (List.replicate d.vocabSize 0)]))

/-- Reference form of the scheduled loop when the ground-truth embedding is
selected at every step (the `additive_sampled, teacher_p = 1` behaviour):
same recursion as `loopB`, with the next input fixed to the ground truth. -/
def gtRun {S : Type} (d : Dec S) (ems : List (List Vec)) :
    ℕ → ℕ → List Vec → List S → List (List Vec)
  | _, 0, _, _ => []
  | t, n + 1, inputs, ss =>
    (stepB d inputs ss).1.map d.linear ::
      gtRun d ems (t + 1) n
        (ems.map (fun em => em.getD (t + 1) []))
        (stepB d inputs ss).2

/-- The greedy sampling loop of `DecoderRNN.sample`: at each of the
`max_seq_length` steps, advance the LSTM, take the argmax token of the
projected logits, and feed its embedding (concatenated with the persistent
features) as the next input.  Returns the time-major list of predictions. -/
def sampleLoop {S : Type} (d : Dec S) (pfs : List Vec) :
    List Vec → List S → ℕ → List (List ℕ)
  | _, _, 0 => []
  | inputs, ss, n + 1 =>
    ((stepB d inputs ss).1.map (fun h => argmaxIdx (d.linear h))) ::
      sampleLoop d pfs
        (List.zipWith (fun p pf => d.embed p ++ pf)
          ((stepB d inputs ss).1.map (fun h => argmaxIdx (d.linear h))) pfs)
        (stepB d inputs ss).2 n

/-- `DecoderRNN.sample`: greedy search for `max_seq_length` steps, then
`torch.stack(sampled_ids, 1)` (one row of token ids per example). -/
def DecoderRNN.sample {S : Type} (d : Dec S) (feats pfs : List Vec)
    (max_seq_length : ℕ) : List (List ℕ) :=
  (List.range feats.length).map (fun i =>
    (sampleLoop d pfs (List.zipWith (fun f pf => f ++ pf) feats pfs)
        (List.replicate feats.length d.s0) max_seq_length).map
      (fun step => step.getD i 0))

/-- `DecoderRNN.sample` with torch's ambient random stream made explicit:
the generator `rng` is available to the method (as it is to `forward`,
which draws from it in the scheduled branches), but the body of `sample`
performs no `torch.rand` call, so the stream is never consumed. -/
def DecoderRNN.sampleRng {S : Type} (d : Dec S) (rng : ℕ → ℚ)
    (feats pfs : List Vec) (max_seq_length : ℕ) : List (List ℕ) :=
  DecoderRNN.sample d feats pfs max_seq_length

/-! ## `SpatialAttentionDecoderRNN` and `SoftAttentionDecoderRNN` -/

/-- Write `vals` into column `t` of the first `vals.length` rows of a
batch-major buffer (the slice assignment `outputs[:batch_size_t, t] = ...`);
the remaining rows keep their previous contents. -/
def updateCol (rows : List (List Vec)) (t : ℕ) (vals : List Vec) : List (List Vec) :=
  List.zipWith (fun row v => row.set t v) rows vals ++ rows.drop vals.length

/-- Learned components of `SpatialAttentionDecoderRNN`: token embedding,
`nn.LSTMCell` transition on explicit `(h, c)` pairs, the attention network
with its `exp`, the vocabulary projection and dropout. -/
structure SpatialDecoderRNN where
  embed : ℕ → Vec
  hidden_size : ℕ
  vocab_size : ℕ
  num_attention_locs : ℕ
  lstm_step : Vec → Vec × Vec → Vec × Vec
  attention : SpatialAttention
  attE : ℚ → ℚ
  linear : Vec → Vec
  dropout : Vec → Vec

/-- `embeddings = torch.cat([encoder_features.unsqueeze(1), embeddings], 1)`
in `SpatialAttentionDecoderRNN.forward`. -/
def SpatialAttentionDecoderRNN.embeddingsOf (d : SpatialDecoderRNN)
    (encoder_features : List Vec) (caps : List (List ℕ)) : List (List Vec) :=
  List.zipWith (fun f cap => f :: cap.map d.embed) encoder_features caps

/-- `embeddings[:batch_size_t, t]`: the embedding column fed to
`self.lstm_step` at step `t` of `SpatialAttentionDecoderRNN.forward`. -/
def SpatialAttentionDecoderRNN.stepInput (d : SpatialDecoderRNN)
    (encoder_features : List Vec) (caps : List (List ℕ)) (lengths : List ℕ)
    (t : ℕ) : List Vec :=
  ((SpatialAttentionDecoderRNN.embeddingsOf d encoder_features caps).map
    (fun em => em.getD t [])).take (batch_size_t lengths t)

/-- The step loop of `SpatialAttentionDecoderRNN.forward`: slice the active
prefix, advance the LSTM cell on the embedding column, attend over the
feature grids, and record logits and attention weights at column `t`. -/
def spatialLoop (d : SpatialDecoderRNN) (feats : List (List Vec))
    (ems : List (List Vec)) (lengths : List ℕ) :
    ℕ → ℕ → List Vec → List Vec → List (List Vec) → List (List Vec) →
      List (List Vec) × List (List Vec)
  | _, 0, _, _, outputs, alphas => (outputs, alphas)
  | t, n + 1, h, c, outputs, alphas =>
    let bst := batch_size_t lengths t
    let hc2 := List.zipWith (fun em p => d.lstm_step em p)
      ((ems.map (fun em => em.getD t [])).take bst)
      (List.zipWith (fun a b => (a, b)) (h.take bst) (c.take bst))
    let ca := List.zipWith (fun f hh => SpatialAttention.forward d.attention d.attE f hh)
      (feats.take bst) (hc2.map Prod.fst)
    spatialLoop d feats ems lengths (t + 1) n (hc2.map Prod.fst) (hc2.map Prod.snd)
      (updateCol outputs t
        (List.zipWith (fun hh ctx => d.linear (d.dropout hh ++ ctx))
          (hc2.map Prod.fst) (ca.map Prod.fst)))
      (updateCol alphas t (ca.map Prod.snd))

/-- `SpatialAttentionDecoderRNN.forward`: prepend the encoder output to the
embeddings, start from zero `h, c`, run the step loop over
`seq_length - 1 = T` steps, and pack the outputs. `external_features` is
the feature grid per example (`view(batch_size, -1, feature_size)`). -/
def SpatialAttentionDecoderRNN.forward (d : SpatialDecoderRNN)
    (encoder_features : List Vec) (caps : List (List ℕ)) (T : ℕ)
    (lengths : List ℕ) (external_features : List (List Vec)) :
    List Vec × List (List Vec) :=
  let ems := SpatialAttentionDecoderRNN.embeddingsOf d encoder_features caps
  let oa := spatialLoop d external_features ems lengths 0 T
    (List.replicate ems.length (List.replicate d.hidden_size 0))
    (List.replicate ems.length (List.replicate d.hidden_size 0))
    (List.replicate ems.length (List.replicate (T + 1) (List.replicate d.vocab_size 0)))
    (List.replicate ems.length (List.replicate (T + 1) (List.replicate d.num_attention_locs 0)))
  (packSteps lengths 0 (timeMajor (T + 1) oa.1), oa.2)

/-- Learned components of `SoftAttentionDecoderRNN`.  `f_beta_sigmoid` is
the gating composite `sigmoid(f_beta(h))`; `init_h`, `init_c` transform the
mean feature vector into the initial LSTM state. -/
structure SoftDecoderRNN where
  embed : ℕ → Vec
  hidden_size : ℕ
  vocab_size : ℕ
  feature_size : ℕ
  num_attention_locs : ℕ
  lstm_step : Vec → Vec × Vec → Vec × Vec
  attention : SpatialAttention
  attE : ℚ → ℚ
  init_h : Vec → Vec
  init_c : Vec → Vec
  f_beta_sigmoid : Vec → Vec
  linear : Vec → Vec
  dropout : Vec → Vec

/-- `features.mean(dim=1)`: mean of the location vectors of one grid. -/
def meanFeatures (grid : List Vec) (C : ℕ) : Vec :=
  (grid.foldr vadd (List.replicate C 0)).map (fun v => v / (grid.length : ℚ))

/-- `SoftAttentionDecoderRNN.init_hidden_state`. -/
def SoftDecoderRNN.init_hidden_state (d : SoftDecoderRNN)
    (feats : List (List Vec)) : List Vec × List Vec :=
  (feats.map (fun g => d.init_h (meanFeatures g d.feature_size)),
   feats.map (fun g => d.init_c (meanFeatures g d.feature_size)))

/-- `embeddings = self.embed(captions)` in `SoftAttentionDecoderRNN.forward`
(note: the encoder output is *not* prepended here). -/
def SoftAttentionDecoderRNN.embeddingsOf (d : SoftDecoderRNN)
    (caps : List (List ℕ)) : List (List Vec) :=
  caps.map (fun cap => cap.map d.embed)

/-- `embeddings[:batch_size_t, t]`: the embedding part of the input fed to
`self.lstm_step` at step `t` of `SoftAttentionDecoderRNN.forward`. -/
def SoftAttentionDecoderRNN.stepInput (d : SoftDecoderRNN)
    (caps : List (List ℕ)) (lengths : List ℕ) (t : ℕ) : List Vec :=
  ((SoftAttentionDecoderRNN.embeddingsOf d caps).map
    (fun em => em.getD t [])).take (batch_size_t lengths t)

/-- One-hot row of size `V` (`zeros(...).scatter_(1, index, 1)`). -/
def oneHot (V : ℕ) (idx : ℕ) : Vec :=
  (List.range V).map (fun j => if j = idx then 1 else 0)

/-- The step loop of `SoftAttentionDecoderRNN.forward`: attend over the
active feature grids with the current hidden state, gate the context with
`sigmoid(f_beta(h))`, advance the LSTM cell on the embedding column
concatenated with the gated context, and record logits and weights at
column `t + 1`. -/
def softLoop (d : SoftDecoderRNN) (feats : List (List Vec))
    (ems : List (List Vec)) (lengths : List ℕ) :
    ℕ → ℕ → List Vec → List Vec → List (List Vec) → List (List Vec) →
      List (List Vec) × List (List Vec)
  | _, 0, _, _, outputs, alphas => (outputs, alphas)
  | t, n + 1, h, c, outputs, alphas =>
    let bst := batch_size_t lengths t
    let ca := List.zipWith (fun f hh => SpatialAttention.forward d.attention d.attE f hh)
      (feats.take bst) (h.take bst)
    let ctxs := List.zipWith (fun g cx => List.zipWith (fun a b => a * b) g cx)
      ((h.take bst).map d.f_beta_sigmoid) (ca.map Prod.fst)
    let hc2 := List.zipWith (fun inp p => d.lstm_step inp p)
      (List.zipWith (fun em cx => em ++ cx)
        ((ems.map (fun em => em.getD t [])).take bst) ctxs)
      (List.zipWith (fun a b => (a, b)) (h.take bst) (c.take bst))
    softLoop d feats ems lengths (t + 1) n (hc2.map Prod.fst) (hc2.map Prod.snd)
      (updateCol outputs (t + 1) ((hc2.map Prod.fst).map (fun hh => d.linear (d.dropout hh))))
      (updateCol alphas (t + 1) (ca.map Prod.snd))

/-- `SoftAttentionDecoderRNN.forward`: the `encoder_features` argument is
accepted but never used by the body; the initial state comes from the mean
of the external feature grids, column `0` of the outputs is the one-hot of
the first caption token, and the loop runs `seq_length - 1 = T - 1` steps
over the caption width `T = captions.size(1)`. -/
def SoftAttentionDecoderRNN.forward (d : SoftDecoderRNN)
    (encoder_features : List Vec) (caps : List (List ℕ)) (T : ℕ)
    (lengths : List ℕ) (external_features : List (List Vec)) :
    List Vec × List (List Vec) :=
  let ems := SoftAttentionDecoderRNN.embeddingsOf d caps
  let hc := SoftDecoderRNN.init_hidden_state d external_features
  let oa := softLoop d external_features ems lengths 0 (T - 1) hc.1 hc.2
    (updateCol (List.replicate caps.length (List.replicate T (List.replicate d.vocab_size 0))) 0
      (caps.map (fun cap => oneHot d.vocab_size (cap.getD 0 0))))
    (List.replicate caps.length (List.replicate T (List.replicate d.num_attention_locs 0)))
  (packSteps lengths 0 (timeMajor T oa.1), oa.2)

/-! ## Concrete instances used to evaluate the theorems on closed inputs -/

/-- A concrete plain decoder: identity-like components over a unit state. -/
def dU : Dec Unit :=
  { embed := fun t => [(t : ℚ)]
    cell := fun v _ => (v, ())
    s0 := ()
    linear := fun v => v
    vocabSize := 1 }

/-- A concrete spatial-attention decoder. -/
def dSpatInst : SpatialDecoderRNN :=
  { embed := fun t => [(t : ℚ)]
    hidden_size := 1
    vocab_size := 1
    num_attention_locs := 1
    lstm_step := fun _ p => p
    attention := SpatialAttention.mk [] [] [] [] [] 0
    attE := fun _ => 1
    linear := fun v => v
    dropout := fun v => v }

/-- A concrete soft-attention decoder. -/
def dSoftInst : SoftDecoderRNN :=
  { embed := fun t => [(t : ℚ)]
    hidden_size := 1
    vocab_size := 1
    feature_size := 1
    num_attention_locs := 1
    lstm_step := fun _ p => p
    attention := SpatialAttention.mk [] [] [] [] [] 0
    attE := fun _ => 1
    init_h := fun v => v
    init_c := fun v => v
    f_beta_sigmoid := fun v => v
    linear := fun v => v
    dropout := fun v => v }

/-- A concrete attention network with identity-sized layers. -/
def attInst : SpatialAttention :=
  SpatialAttention.mk [[1]] [0] [[1]] [0] [1] 0

/-! ## Helper lemmas -/

theorem featLoop_eq (fs : List String) :
    ∀ acc : List String × List String,
      featLoop fs acc
        = (acc.1 ++ fs.filter hasExt, acc.2 ++ fs.filter (fun f => !(hasExt f))) := by
  induction fs with
  | nil => intro acc; simp [featLoop]
  | cons fn rest ih =>
    intro acc
    by_cases h : hasExt fn
    · simp [featLoop, h, ih, List.filter_cons]
    · simp [featLoop, h, ih, List.filter_cons]

theorem batch_size_t_mono (lengths : List ℕ) (t u : ℕ) (h : t ≤ u) :
    batch_size_t lengths u ≤ batch_size_t lengths t := by
  induction lengths with
  | nil => simp [batch_size_t]
  | cons a rest ih =>
    simp only [batch_size_t, List.map_cons, List.sum_cons] at *
    refine Nat.add_le_add ?_ ih
    by_cases hu : u < a
    · simp [hu, Nat.lt_of_le_of_lt h hu]
    · simp [hu]

theorem batch_size_t_zero (lengths : List ℕ) (t : ℕ)
    (h : ∀ l ∈ lengths, l ≤ t) : batch_size_t lengths t = 0 := by
  induction lengths with
  | nil => simp [batch_size_t]
  | cons a rest ih =>
    have ha : ¬ t < a := Nat.not_lt.mpr (h a (by simp))
    have hr : batch_size_t rest t = 0 :=
      ih (fun l hl => h l (List.mem_cons_of_mem _ hl))
    simp only [batch_size_t, List.map_cons, List.sum_cons, ha, if_false]
    simpa [batch_size_t] using hr

theorem batch_size_t_take (lengths : List ℕ)
    (hs : List.Pairwise (· ≥ ·) lengths) (t : ℕ) :
    ∀ l ∈ lengths.take (batch_size_t lengths t), t < l := by
  induction lengths with
  | nil => simp
  | cons a rest ih =>
    rcases List.pairwise_cons.mp hs with ⟨ha, hrest⟩
    by_cases h : t < a
    · simp only [batch_size_t, List.map_cons, List.sum_cons, if_pos h]
      rw [Nat.add_comm, List.take_succ_cons]
      intro l hl
      rcases List.mem_cons.mp hl with rfl | hl
      · exact h
      · exact ih hrest l hl
    · have hz : batch_size_t rest t = 0 :=
        batch_size_t_zero rest t
          (fun l hl => Nat.le_trans (ha l hl) (Nat.not_lt.mp h))
      have hbz : batch_size_t (a :: rest) t = 0 := by
        simp only [batch_size_t, List.map_cons, List.sum_cons, h, if_false]
        simpa [batch_size_t] using hz
      simp [hbz]

theorem sum_map_div (l : List ℚ) (c : ℚ) :
    (l.map (fun x => x / c)).sum = l.sum / c := by
  induction l with
  | nil => simp
  | cons a rest ih => simp [ih, add_div]

theorem rangeMap_getD {α : Type} (l : List α) (d : α) :
    (List.range l.length).map (fun i => l.getD i d) = l := by
  induction l with
  | nil => simp
  | cons a rest ih =>
    rw [List.length_cons, List.range_succ_eq_map, List.map_cons]
    simp only [List.getD_cons_zero, List.map_map]
    have hc : ((fun i => (a :: rest).getD i d) ∘ Nat.succ) = fun i => rest.getD i d := by
      funext i
      simp [List.getD_cons_succ]
    rw [hc, ih]

theorem zipWith_map_same (f : α → β → γ) (g1 : δ → α) (g2 : δ → β) (l : List δ) :
    List.zipWith f (l.map g1) (l.map g2) = l.map (fun x => f (g1 x) (g2 x)) := by
  induction l with
  | nil => rfl
  | cons a rest ih => simp [ih]

theorem softmax_nonneg (e : ℚ → ℚ) (hpos : ∀ x, 0 < e x) (xs : List ℚ) :
    ∀ a ∈ softmax e xs, 0 ≤ a := by
  intro a ha
  rcases List.mem_map.mp ha with ⟨x, _, rfl⟩
  have hs : 0 ≤ (xs.map e).sum := by
    apply List.sum_nonneg
    intro b hb
    rcases List.mem_map.mp hb with ⟨y, _, rfl⟩
    exact le_of_lt (hpos y)
  exact div_nonneg (le_of_lt (hpos x)) hs

theorem softmax_sum (e : ℚ → ℚ) (hpos : ∀ x, 0 < e x) (xs : List ℚ)
    (hne : xs ≠ []) : (softmax e xs).sum = 1 := by
  have hs : 0 < (xs.map e).sum := by
    apply List.sum_pos
    · intro b hb
      rcases List.mem_map.mp hb with ⟨y, _, rfl⟩
      exact hpos y
    · simpa using hne
  have hrw : softmax e xs = (xs.map e).map (fun x => x / (xs.map e).sum) := by
    simp [softmax, List.map_map, Function.comp]
  rw [hrw, sum_map_div, div_self (ne_of_gt hs)]

theorem wsum_eq (C : ℕ) :
    ∀ (fs : List Vec) (ws : List ℚ), ws.length = fs.length →
      (∀ f ∈ fs, f.length = C) →
      (List.zipWith (fun f a => f.map (fun v => a * v)) fs ws).foldr vadd
          (List.replicate C 0)
        = attnWeightedSum ws fs C := by
  intro fs
  induction fs with
  | nil =>
    intro ws hw _
    have hws : ws = [] := List.length_eq_zero.mp (by simpa using hw)
    subst hws
    simp only [List.zipWith_nil_right, List.foldr_nil, attnWeightedSum,
      List.zipWith_nil_left, List.sum_nil]
    simp
  | cons f fs ih =>
    intro ws hw hC
    cases ws with
    | nil => simp at hw
    | cons a ws =>
      have hf : f.length = C := hC f (by simp)
      have hfs : ∀ g ∈ fs, g.length = C := fun g hg => hC g (List.mem_cons_of_mem _ hg)
      simp only [List.zipWith_cons_cons, List.foldr_cons]
      rw [ih ws (by simpa using hw) hfs]
      have hf2 : f.map (fun v => a * v) = (List.range C).map (fun j => a * f.getD j 0) := by
        conv_lhs => rw [← rangeMap_getD f 0]
        rw [List.map_map, hf]
        rfl
      rw [hf2]
      show List.zipWith (fun x y => x + y) _ _ = _
      rw [show attnWeightedSum ws fs C
          = (List.range C).map (fun j => (List.zipWith (fun w g => w * g.getD j 0) ws fs).sum)
          from rfl]
      rw [zipWith_map_same]
      apply List.map_congr_left
      intro j _
      simp [attnWeightedSum]

theorem embeddings_head (embed : ℕ → Vec) :
    ∀ (feats : List Vec) (caps : List (List ℕ)), caps.length = feats.length →
      (List.zipWith (fun f cap => f :: cap.map embed) feats caps).map
        (fun em => em.headD []) = feats := by
  intro feats
  induction feats with
  | nil => intro caps _; simp
  | cons f fs ih =>
    intro caps h
    cases caps with
    | nil => simp at h
    | cons c cs =>
      simp only [List.zipWith_cons_cons, List.map_cons, List.headD_cons]
      rw [ih cs (by simpa using h)]

theorem sampleLoop_length {S : Type} (d : Dec S) (pfs : List Vec) :
    ∀ (n : ℕ) (inputs : List Vec) (ss : List S),
      (sampleLoop d pfs inputs ss n).length = n := by
  intro n
  induction n with
  | zero => intro inputs ss; rfl
  | succ n ih => intro inputs ss; simp only [sampleLoop, List.length_cons, ih]

theorem sampleLoop_take {S : Type} (d : Dec S) (pfs : List Vec) :
    ∀ (n m : ℕ), n ≤ m → ∀ (inputs : List Vec) (ss : List S),
      sampleLoop d pfs inputs ss n = (sampleLoop d pfs inputs ss m).take n := by
  intro n
  induction n with
  | zero => intro m _ inputs ss; simp [sampleLoop]
  | succ n ih =>
    intro m h inputs ss
    cases m with
    | zero => omega
    | succ m =>
      simp only [sampleLoop, List.take_succ_cons]
      exact congrArg _ (ih m (by omega) _ _)

/-! ## Claim theorems -/

/-- Claim C10: `update_ext_features` replaces only the external component of
`features`; the internal component, `persist_features`, and every other
`ModelParams` field are unchanged. -/
theorem claim_C10 {V : Type} (p : ModelParams V) (ef : String ⊕ List String) :
    (p.update_ext_features ef).features.internal = p.features.internal ∧
    (p.update_ext_features ef).features.external = updateExtArg ef ∧
    (p.update_ext_features ef).persist_features = p.persist_features ∧
    (p.update_ext_features ef).embed_size = p.embed_size ∧
    (p.update_ext_features ef).hidden_size = p.hidden_size ∧
    (p.update_ext_features ef).num_layers = p.num_layers ∧
    (p.update_ext_features ef).batch_size = p.batch_size ∧
    (p.update_ext_features ef).dropout = p.dropout ∧
    (p.update_ext_features ef).learning_rate = p.learning_rate ∧
    (p.update_ext_features ef).encoder_dropout = p.encoder_dropout ∧
    (p.update_ext_features ef).attention = p.attention ∧
    (p.update_ext_features ef).vocab = p.vocab :=
  ⟨rfl, rfl, rfl, rfl, rfl, rfl, rfl, rfl, rfl, rfl, rfl, rfl⟩

/-- Claim C7: `_get_features` assigns each comma-separated entry with a file
extension to the external list and each entry without one to the internal
list, preserving order; the empty string yields two empty lists, and
parsing `"resnet152,feat.npy"` yields `internal=["resnet152"]`,
`external=["feat.npy"]`. -/
theorem claim_C7 :
    (∀ s : String, ModelParams.getFeaturesOf s
      = Features.mk ((splitFeatures s).filter hasExt)
          ((splitFeatures s).filter (fun f => !(hasExt f)))) ∧
    ModelParams.getFeaturesOf "" = Features.mk [] [] ∧
    ModelParams.getFeaturesOf "resnet152,feat.npy"
      = Features.mk ["feat.npy"] ["resnet152"] := by
  refine ⟨fun s => ?_, by decide, by decide⟩
  simp [ModelParams.getFeaturesOf, featLoop_eq]

/-- Claim C5: for lengths sorted in descending order, the active slice size
`sum([l > t for l in lengths])` is non-increasing in `t`, and the active
slice is a prefix: every kept length exceeds the current step. -/
theorem claim_C5 (lengths : List ℕ) (hs : List.Pairwise (· ≥ ·) lengths) :
    (∀ t u, t ≤ u → batch_size_t lengths u ≤ batch_size_t lengths t) ∧
    (∀ t, ∀ l ∈ lengths.take (batch_size_t lengths t), t < l) :=
  ⟨fun t u h => batch_size_t_mono lengths t u h,
   fun t => batch_size_t_take lengths hs t⟩

/-- Witness for C5 at `lengths = [5, 3]`. -/
theorem claim_C5_witness :
    batch_size_t [5, 3] 4 ≤ batch_size_t [5, 3] 2 ∧
    ∀ l ∈ ([5, 3] : List ℕ).take (batch_size_t [5, 3] 2), 2 < l :=
  ⟨(claim_C5 [5, 3] (by decide)).1 2 4 (by decide),
   (claim_C5 [5, 3] (by decide)).2 2⟩

/-- Claim C4: `get_teacher_prob` returns exactly `1.0` when `k = 0` for
every iteration and `beta`; for `k > 0` it equals
`k / (k + exp(i * beta / k))`, is non-increasing in `i` (for a decay
parameter `beta ≥ 0`), and at `i = 0` equals `k / (k + 1)`, which is
within `1 / k` of `1`. -/
theorem claim_C4 (e : ℚ → ℚ) (hmono : Monotone e) (hpos : ∀ x, 0 < e x)
    (h0 : e 0 = 1) :
    (∀ i beta, get_teacher_prob e 0 i beta = 1) ∧
    (∀ k i beta, k ≠ 0 → get_teacher_prob e k i beta = k / (k + e (i * beta / k))) ∧
    (∀ k beta i j, 0 < k → 0 ≤ beta → i ≤ j →
      get_teacher_prob e k j beta ≤ get_teacher_prob e k i beta) ∧
    (∀ k beta, 0 < k → get_teacher_prob e k 0 beta = k / (k + 1) ∧
      1 - 1 / k ≤ get_teacher_prob e k 0 beta ∧ get_teacher_prob e k 0 beta < 1) := by
  refine ⟨fun i beta => by simp [get_teacher_prob],
    fun k i beta hk => by simp [get_teacher_prob, hk], ?_, ?_⟩
  · intro k beta i j hk hb hij
    have hkne : k ≠ 0 := ne_of_gt hk
    simp only [get_teacher_prob, hkne, if_false]
    have harg : i * beta / k ≤ j * beta / k := by gcongr
    have he : e (i * beta / k) ≤ e (j * beta / k) := hmono harg
    have hd : 0 < k + e (i * beta / k) := by
      have := hpos (i * beta / k)
      linarith
    gcongr
  · intro k beta hk
    have hkne : k ≠ 0 := ne_of_gt hk
    have hv : get_teacher_prob e k 0 beta = k / (k + 1) := by
      simp [get_teacher_prob, hkne, h0]
    refine ⟨hv, ?_, ?_⟩
    · rw [hv]
      have hk1 : (0 : ℚ) < k + 1 := by linarith
      have h1k : 1 - 1 / k = (k - 1) / k := by
        field_simp
      rw [h1k, div_le_div_iff hk hk1]
      nlinarith
    · rw [hv]
      have hk1 : (0 : ℚ) < k + 1 := by linarith
      exact (div_lt_one hk1).mpr (by linarith)

/-- Witness for C4 with `e = const 1`. -/
theorem claim_C4_witness :
    get_teacher_prob (fun _ => 1) 0 7 (-2) = 1 ∧
    get_teacher_prob (fun _ => 1) 2 6 1 ≤ get_teacher_prob (fun _ => 1) 2 3 1 :=
  ⟨(claim_C4 (fun _ => 1) monotone_const (fun _ => one_pos) rfl).1 7 (-2),
   (claim_C4 (fun _ => 1) monotone_const (fun _ => one_pos) rfl).2.2.1 2 1 3 6
     (by norm_num) (by norm_num) (by norm_num)⟩

/-- Claim C9: greedy sampling consumes no randomness — its result is
invariant under the ambient random stream, so two runs on the same frozen
weights and inputs coincide. -/
theorem claim_C9 {S : Type} (d : Dec S) (rng1 rng2 : ℕ → ℚ)
    (feats pfs : List Vec) (n : ℕ) :
    DecoderRNN.sampleRng d rng1 feats pfs n
      = DecoderRNN.sampleRng d rng2 feats pfs n := rfl

/-- Claim C8: `DecoderRNN.sample` runs exactly `max_seq_length` steps and
returns exactly that many token ids per example; raising the budget only
extends the rows (prefix property), so there is no early exit. -/
theorem claim_C8 {S : Type} (d : Dec S) (feats pfs : List Vec) (n : ℕ) :
    (DecoderRNN.sample d feats pfs n).map List.length
      = List.replicate feats.length n ∧
    (∀ m, n ≤ m → DecoderRNN.sample d feats pfs n
      = (DecoderRNN.sample d feats pfs m).map (fun r => r.take n)) := by
  constructor
  · simp only [DecoderRNN.sample, List.map_map]
    have : (List.length ∘ fun i =>
        (sampleLoop d pfs (List.zipWith (fun f pf => f ++ pf) feats pfs)
          (List.replicate feats.length d.s0) n).map (fun step => step.getD i 0))
        = fun _ => n := by
      funext i
      simp [sampleLoop_length]
    rw [this, List.map_const', List.length_range]
  · intro m hm
    simp only [DecoderRNN.sample, List.map_map]
    rw [sampleLoop_take d pfs n m hm]
    apply List.map_congr_left
    intro i _
    simp [List.map_take, Function.comp]

/-- Witness for C8 at a concrete decoder and budgets 2 and 3. -/
theorem claim_C8_witness :
    (DecoderRNN.sample dU [[1]] [[]] 2).map List.length = List.replicate 1 2 ∧
    DecoderRNN.sample dU [[1]] [[]] 2
      = (DecoderRNN.sample dU [[1]] [[]] 3).map (fun r => r.take 2) :=
  ⟨(claim_C8 dU [[1]] [[]] 2).1,
   (claim_C8 dU [[1]] [[]] 2).2 3 (by norm_num)⟩

/-- Claim C6: `SpatialAttention.forward` returns attention weights that are
non-negative and sum to 1 over the location axis, and a context vector
equal to the weighted sum of the location features by those weights. -/
theorem claim_C6 (A : SpatialAttention) (e : ℚ → ℚ) (features : List Vec)
    (h : Vec) (C : ℕ) (hpos : ∀ x, 0 < e x) (hne : features ≠ [])
    (hC : ∀ f ∈ features, f.length = C) :
    (∀ a ∈ (SpatialAttention.forward A e features h).2, 0 ≤ a) ∧
    ((SpatialAttention.forward A e features h).2).sum = 1 ∧
    (SpatialAttention.forward A e features h).1
      = attnWeightedSum ((SpatialAttention.forward A e features h).2) features C := by
  have h2 : (SpatialAttention.forward A e features h).2
      = softmax e ((features.map (linearMap A.image_att_w A.image_att_b)).map
          (fun row => dotProduct A.combined_att_w
            (reluV (vadd row (linearMap A.lstm_att_w A.lstm_att_b h)))
            + A.combined_att_b)) := rfl
  have hlen : ((SpatialAttention.forward A e features h).2).length = features.length := by
    rw [h2]
    simp [softmax]
  refine ⟨?_, ?_, ?_⟩
  · intro a ha
    rw [h2] at ha
    exact softmax_nonneg e hpos _ a ha
  · rw [h2]
    apply softmax_sum e hpos
    simpa using hne
  · have hhead : (features.headD []).length = C := by
      cases features with
      | nil => exact absurd rfl hne
      | cons f fs => exact hC f (by simp)
    have hctx : (SpatialAttention.forward A e features h).1
        = (List.zipWith (fun f a => f.map (fun v => a * v)) features
            ((SpatialAttention.forward A e features h).2)).foldr vadd
          (List.replicate C 0) := by
      rw [← hhead]
      rfl
    rw [hctx]
    exact wsum_eq C features _ hlen hC

/-- Witness for C6 at a concrete one-location, one-channel instance. -/
theorem claim_C6_witness :
    ((SpatialAttention.forward attInst (fun _ => 1) [[2]] [0]).2).sum = 1 ∧
    (SpatialAttention.forward attInst (fun _ => 1) [[2]] [0]).1
      = attnWeightedSum ((SpatialAttention.forward attInst (fun _ => 1) [[2]] [0]).2)
          [[2]] 1 :=
  ⟨(claim_C6 attInst (fun _ => 1) [[2]] [0] 1 (fun _ => one_pos) (by decide)
      (by decide)).2.1,
   (claim_C6 attInst (fun _ => 1) [[2]] [0] 1 (fun _ => one_pos) (by decide)
      (by decide)).2.2⟩

/-- Counterexample to claim C2 as stated: in `SoftAttentionDecoderRNN`,
the embedding consumed by the recurrent cell at the first decode step is
the embedding of the first caption token, not the Encoder output.  With
`embed t = [t]`, caption `[5]` and encoder output `[99]`, the consumed
embedding is `[5]`, not `[99]`. -/
theorem claim_C2_counterexample :
    SoftAttentionDecoderRNN.stepInput dSoftInst [[5]] [1] 0 = [[(5 : ℚ)]] ∧
    SoftAttentionDecoderRNN.stepInput dSoftInst [[5]] [1] 0
      ≠ ([[(99 : ℚ)]]).take (batch_size_t [1] 0) := by
  exact ⟨by decide, by decide⟩

/-- Claim C2 (amended): plain `DecoderRNN` and `SpatialAttentionDecoderRNN`
consume the Encoder output as the synthetic first embedding at `t = 0`;
`SoftAttentionDecoderRNN` instead consumes the embedding of the first
caption token, and its forward pass ignores the encoder output entirely. -/
theorem claim_C2 :
    (∀ (S : Type) (d : Dec S) (feats : List Vec) (caps : List (List ℕ)),
      caps.length = feats.length →
      (DecoderRNN.embeddingsOf d feats caps).map (fun em => em.headD []) = feats) ∧
    (∀ (ds : SpatialDecoderRNN) (encF : List Vec) (caps : List (List ℕ))
        (lengths : List ℕ), caps.length = encF.length →
      SpatialAttentionDecoderRNN.stepInput ds encF caps lengths 0
        = encF.take (batch_size_t lengths 0)) ∧
    (∀ (dso : SoftDecoderRNN) (caps : List (List ℕ)) (lengths : List ℕ),
      (∀ cap ∈ caps, cap ≠ []) →
      SoftAttentionDecoderRNN.stepInput dso caps lengths 0
        = (caps.map (fun cap => dso.embed (cap.getD 0 0))).take
            (batch_size_t lengths 0)) ∧
    (∀ (dso : SoftDecoderRNN) (encF1 encF2 : List Vec) (caps : List (List ℕ))
        (T : ℕ) (lengths : List ℕ) (xf : List (List Vec)),
      SoftAttentionDecoderRNN.forward dso encF1 caps T lengths xf
        = SoftAttentionDecoderRNN.forward dso encF2 caps T lengths xf) := by
  refine ⟨?_, ?_, ?_, ?_⟩
  · intro S d feats caps h
    exact embeddings_head d.embed feats caps h
  · intro ds encF caps lengths h
    have hg : ∀ em : List Vec, em.getD 0 [] = em.headD [] := by
      intro em
      cases em <;> rfl
    have hm : (SpatialAttentionDecoderRNN.embeddingsOf ds encF caps).map
        (fun em => em.getD 0 []) = encF := by
      simp only [hg]
      exact embeddings_head ds.embed encF caps h
    rw [SpatialAttentionDecoderRNN.stepInput, hm]
  · intro dso caps lengths hne
    have hm : (SoftAttentionDecoderRNN.embeddingsOf dso caps).map
        (fun em => em.getD 0 [])
        = caps.map (fun cap => dso.embed (cap.getD 0 0)) := by
      simp only [SoftAttentionDecoderRNN.embeddingsOf, List.map_map]
      apply List.map_congr_left
      intro cap hcap
      cases cap with
      | nil => exact absurd rfl (hne [] hcap)
      | cons x xs => rfl
    rw [SoftAttentionDecoderRNN.stepInput, hm]
  · intro dso encF1 encF2 caps T lengths xf
    rfl

/-- Witness for the amended C2 at concrete instances of all three
decoder variants. -/
theorem claim_C2_witness :
    (DecoderRNN.embeddingsOf dU [[1]] [[0]]).map (fun em => em.headD [])
      = [[(1 : ℚ)]] ∧
    SpatialAttentionDecoderRNN.stepInput dSpatInst [[7]] [[0]] [1] 0
      = ([[(7 : ℚ)]]).take (batch_size_t [1] 0) ∧
    SoftAttentionDecoderRNN.stepInput dSoftInst [[5]] [1] 0
      = (([[5]] : List (List ℕ)).map (fun cap => dSoftInst.embed (cap.getD 0 0))).take
          (batch_size_t [1] 0) ∧
    SoftAttentionDecoderRNN.forward dSoftInst [[99]] [[5]] 1 [1] [[[1]]]
      = SoftAttentionDecoderRNN.forward dSoftInst [[0]] [[5]] 1 [1] [[[1]]] :=
  ⟨claim_C2.1 Unit dU [[1]] [[0]] (by decide),
   claim_C2.2.1 dSpatInst [[7]] [[0]] [1] (by decide),
   claim_C2.2.2.1 dSoftInst [[5]] [1] (by decide),
   claim_C2.2.2.2 dSoftInst [[99]] [[0]] [[5]] 1 [1] [[[1]]]⟩


/-- Claim C1: an unrecognized `teacher_forcing` policy name makes
`DecoderRNN.forward` produce no output, for every batch whose captions
have at least one token column and for every persist-feature state: with a
real persist tensor the scheduled branch's initial `torch.cat` raises
before the loop, and with the empty placeholder the loop hits
`return None` at its first step. -/
theorem claim_C1 {S : Type} (d : Dec S) (feats : List Vec)
    (caps : List (List ℕ)) (T : ℕ) (lengths : List ℕ)
    (persist : Option (List Vec)) (rand : ℕ → ℚ) (tp : ℚ) (policy : String)
    (hT : 1 ≤ T)
    (h1 : policy ≠ "always") (h2 : policy ≠ "sampled")
    (h3 : policy ≠ "additive") (h4 : policy ≠ "additive_sampled") :
    DecoderRNN.forward d feats caps T lengths persist rand tp policy = none := by
  obtain ⟨n, rfl⟩ : ∃ n, T = n + 1 := ⟨T - 1, by omega⟩
  cases persist with
  | some pfs => simp [DecoderRNN.forward, h1]
  | none => simp [DecoderRNN.forward, h1, loopB, selectNext, h2, h3, h4]

/-- Witness for C1 at the policy name `"bogus"`, on both persist states. -/
theorem claim_C1_witness :
    DecoderRNN.forward dU [[1]] [[0]] 1 [1] none (fun _ => 0) 1 "bogus" = none ∧
    DecoderRNN.forward dU [[1]] [[0]] 1 [1] (some [[2]]) (fun _ => 0) 1 "bogus"
      = none :=
  ⟨claim_C1 dU [[1]] [[0]] 1 [1] none (fun _ => 0) 1 "bogus" (by norm_num)
     (by decide) (by decide) (by decide) (by decide),
   claim_C1 dU [[1]] [[0]] 1 [1] (some [[2]]) (fun _ => 0) 1 "bogus" (by norm_num)
     (by decide) (by decide) (by decide) (by decide)⟩

/-! ## Lemmas for claim C3 -/

theorem zipWith_congr_mem {f g : α → β → γ} :
    ∀ (la : List α) (lb : List β),
      (∀ a ∈ la, ∀ b ∈ lb, f a b = g a b) →
      List.zipWith f la lb = List.zipWith g la lb := by
  intro la
  induction la with
  | nil => intro lb _; rfl
  | cons a la ih =>
    intro lb h
    cases lb with
    | nil => rfl
    | cons b lb =>
      simp only [List.zipWith_cons_cons]
      rw [h a (by simp) b (by simp),
        ih lb (fun x hx y hy =>
          h x (List.mem_cons_of_mem _ hx) y (List.mem_cons_of_mem _ hy))]

theorem zipWith_absorb {β2 : Type} (F : α → β2 → γ) (G : α → β → β2) :
    ∀ (la : List α) (lb : List β),
      List.zipWith F la (List.zipWith G la lb)
        = List.zipWith (fun a b => F a (G a b)) la lb := by
  intro la
  induction la with
  | nil => intro lb; rfl
  | cons a la ih =>
    intro lb
    cases lb with
    | nil => rfl
    | cons b lb => simp only [List.zipWith_cons_cons, ih]

theorem zipWith_replicate_right (f : α → γ → δ) (c : γ) :
    ∀ (la : List α) (n : ℕ), la.length ≤ n →
      List.zipWith f la (List.replicate n c) = la.map (fun a => f a c) := by
  intro la
  induction la with
  | nil => intro n _; rfl
  | cons a la ih =>
    intro n h
    cases n with
    | zero => simp at h
    | succ n =>
      simp only [List.replicate_succ, List.zipWith_cons_cons, List.map_cons]
      rw [ih n (by simpa using h)]

theorem timeMajor_length : ∀ (n : ℕ) (rows : List (List Vec)),
    (timeMajor n rows).length = n := by
  intro n
  induction n with
  | zero => intro rows; rfl
  | succ n ih => intro rows; simp only [timeMajor, List.length_cons, ih]

theorem getD_drop_one (r : List Vec) (n : ℕ) :
    (r.drop 1).getD n [] = r.getD (n + 1) [] := by
  cases r with
  | nil => rfl
  | cons a l => simp [List.getD_cons_succ]

theorem timeMajor_snoc : ∀ (n : ℕ) (rows : List (List Vec)),
    timeMajor (n + 1) rows
      = timeMajor n rows ++ [rows.map (fun r => r.getD n [])] := by
  intro n
  induction n with
  | zero =>
    intro rows
    simp only [timeMajor, List.nil_append]
    congr 1
    apply List.map_congr_left
    intro r _
    cases r <;> rfl
  | succ n ih =>
    intro rows
    rw [show timeMajor (n + 1 + 1) rows
        = rows.map (fun r => r.headD []) :: timeMajor (n + 1) (rows.map (fun r => r.drop 1))
        from rfl]
    rw [ih]
    rw [show timeMajor (n + 1) rows
        = rows.map (fun r => r.headD []) :: timeMajor n (rows.map (fun r => r.drop 1))
        from rfl]
    simp only [List.cons_append, List.map_map]
    congr 2
    congr 1
    apply List.map_congr_left
    intro r _
    simp only [Function.comp_apply]
    exact getD_drop_one r n

theorem packSteps_append (lengths : List ℕ) :
    ∀ (X Y : List (List Vec)) (t : ℕ),
      packSteps lengths t (X ++ Y)
        = packSteps lengths t X ++ packSteps lengths (t + X.length) Y := by
  intro X
  induction X with
  | nil => intro Y t; simp [packSteps]
  | cons x X ih =>
    intro Y t
    show packStep lengths t x ++ packSteps lengths (t + 1) (X ++ Y)
        = (packStep lengths t x ++ packSteps lengths (t + 1) X)
          ++ packSteps lengths (t + (x :: X).length) Y
    rw [ih Y (t + 1), List.append_assoc,
      show t + (x :: X).length = t + 1 + X.length by simp only [List.length_cons]; omega]

theorem packStep_past (t : ℕ) :
    ∀ (lengths : List ℕ) (step : List Vec), (∀ l ∈ lengths, l ≤ t) →
      packStep lengths t step = [] := by
  intro lengths
  induction lengths with
  | nil => intro step _; cases step <;> rfl
  | cons l ls ih =>
    intro step h
    cases step with
    | nil => rfl
    | cons o os =>
      have hl : ¬ t < l := Nat.not_lt.mpr (h l (by simp))
      simp only [packStep, List.zip_cons_cons, List.filterMap_cons, hl, if_false]
      exact ih os (fun x hx => h x (List.mem_cons_of_mem _ hx))

theorem ems_width (embed : ℕ → Vec) (T : ℕ) :
    ∀ (feats : List Vec) (caps : List (List ℕ)),
      (∀ cap ∈ caps, cap.length = T) →
      ∀ em ∈ List.zipWith (fun f cap => f :: cap.map embed) feats caps,
        em.length = T + 1 := by
  intro feats
  induction feats with
  | nil => intro caps _ em hem; simp at hem
  | cons f fs ih =>
    intro caps hcap em hem
    cases caps with
    | nil => simp at hem
    | cons c cs =>
      rcases List.mem_cons.mp hem with rfl | hem
      · simp [hcap c (by simp)]
      · exact ih cs (fun x hx => hcap x (List.mem_cons_of_mem _ hx)) em hem

theorem loopB_gt {S : Type} (d : Dec S) (rand : ℕ → ℚ)
    (ems : List (List Vec)) (hr : ∀ u, rand u < 1) :
    ∀ (n t : ℕ) (inputs : List Vec) (ss : List S),
      loopB d "additive_sampled" 1 rand ems t n inputs ss
        = some (gtRun d ems t n inputs ss) := by
  intro n
  induction n with
  | zero => intro t inputs ss; rfl
  | succ n ih =>
    intro t inputs ss
    have hsel : selectNext d "additive_sampled" 1 rand ems t
        ((stepB d inputs ss).1.map d.linear)
        = some (ems.map (fun em => em.getD (t + 1) [])) := by
      simp [selectNext, hr t]
    simp only [loopB, hsel]
    rw [ih (t + 1)]
    simp only [Option.map_some']
    rfl

theorem gtRun_eq {S : Type} (d : Dec S) (ems : List (List Vec)) :
    ∀ (n t : ℕ) (ss : List S) (inputs : List Vec),
      ss.length = ems.length →
      (∀ em ∈ ems, t + n ≤ em.length) →
      inputs = ems.map (fun em => em.getD t []) →
      gtRun d ems t n inputs ss
      = timeMajor n
          (List.zipWith (fun em s => (lstmRun d.cell s (em.drop t)).map d.linear)
            ems ss) := by
  intro n
  induction n with
  | zero => intro t ss inputs _ _ _; rfl
  | succ n ih =>
    intro t ss inputs h2 hb hi
    subst hi
    have hmem : ∀ em ∈ ems, t < em.length := by
      intro em hm
      have := hb em hm
      omega
    have hA : (stepB d (ems.map (fun em => em.getD t [])) ss).1.map d.linear
        = (List.zipWith (fun em s => (lstmRun d.cell s (em.drop t)).map d.linear)
            ems ss).map (fun r => r.headD []) := by
      show ((List.zipWith (fun x s => d.cell x s)
          (ems.map (fun em => em.getD t [])) ss).map Prod.fst).map d.linear = _
      rw [List.zipWith_map_left, List.map_zipWith, List.map_zipWith, List.map_zipWith]
      apply zipWith_congr_mem
      intro em hem s _
      have ht : t < em.length := hmem em hem
      rw [List.drop_eq_getElem_cons ht]
      simp only [lstmRun, List.map_cons, List.headD_cons]
      rw [List.getD_eq_getElem em [] ht]
    have hss : (stepB d (ems.map (fun em => em.getD t [])) ss).2
        = List.zipWith (fun em s => (d.cell (em.getD t []) s).2) ems ss := by
      show (List.zipWith (fun x s => d.cell x s)
          (ems.map (fun em => em.getD t [])) ss).map Prod.snd = _
      rw [List.zipWith_map_left, List.map_zipWith]
    have hB : gtRun d ems (t + 1) n (ems.map (fun em => em.getD (t + 1) []))
          (stepB d (ems.map (fun em => em.getD t [])) ss).2
        = timeMajor n ((List.zipWith
            (fun em s => (lstmRun d.cell s (em.drop t)).map d.linear) ems ss).map
            (fun r => r.drop 1)) := by
      rw [hss]
      rw [ih (t + 1) _ _ (by rw [List.length_zipWith]; omega)
        (by intro em hem; have := hb em hem; omega) rfl]
      rw [zipWith_absorb, List.map_zipWith]
      congr 1
      apply zipWith_congr_mem
      intro em hem s _
      have ht : t < em.length := hmem em hem
      rw [List.drop_eq_getElem_cons ht]
      simp only [lstmRun, List.map_cons, List.drop_succ_cons, List.drop_zero]
      rw [List.getD_eq_getElem em [] ht]
    simp only [gtRun, timeMajor]
    rw [hA, hB]

/-- Counterexample to claim C3 as stated: on a batch with persist features
(`_cat_features` returning a real tensor), `additive_sampled` with
`teacher_p = 1.0` produces no output — the scheduled branch's
`torch.cat([features, persist_features], 1)` mixes the 2-D step input with
the 3-D expanded persist tensor and raises — while `'always'` succeeds, so
the two runs are not behaviorally identical on every batch. -/
theorem claim_C3_counterexample :
    DecoderRNN.forward dU [[1]] [[0]] 1 [1] (some [[2]]) (fun _ => 0) 1
        "additive_sampled" = none ∧
    DecoderRNN.forward dU [[1]] [[0]] 1 [1] (some [[2]]) (fun _ => 0) 1
        "always" ≠ none ∧
    DecoderRNN.forward dU [[1]] [[0]] 1 [1] (some [[2]]) (fun _ => 0) 1
        "additive_sampled"
      ≠ DecoderRNN.forward dU [[1]] [[0]] 1 [1] (some [[2]]) (fun _ => 0) 1
        "always" :=
  ⟨by decide, by decide, by decide⟩

/-- Claim C3 (amended): for every batch with no persistent decoder
features (`_cat_features` returns `None`, so the persist placeholder is
the empty tensor and the scheduled branch's `cat`s are no-ops),
`DecoderRNN.forward` under `teacher_forcing='additive_sampled'` with
`teacher_p=1.0` selects the ground-truth embedding as next input at every
step (every `torch.rand(1)` draw lies in `[0,1)`, hence below `1.0`) and
produces the same packed output sequence as `teacher_forcing='always'`;
with non-empty persist features the scheduled branch fails while
`'always'` succeeds. -/
theorem claim_C3 {S : Type} (d : Dec S) (feats : List Vec) (caps : List (List ℕ))
    (T : ℕ) (lengths : List ℕ) (rand : ℕ → ℚ)
    (hcl : caps.length = feats.length)
    (hw : ∀ cap ∈ caps, cap.length = T)
    (hlen : ∀ l ∈ lengths, l ≤ T)
    (hr : ∀ u, rand u < 1) :
    (∀ t outs, selectNext d "additive_sampled" 1 rand
        (DecoderRNN.embeddingsOf d feats caps) t outs
      = some ((DecoderRNN.embeddingsOf d feats caps).map (fun em => em.getD (t + 1) []))) ∧
    DecoderRNN.forward d feats caps T lengths none rand 1 "additive_sampled"
      = DecoderRNN.forward d feats caps T lengths none rand 1 "always" := by
  constructor
  · intro t outs
    simp [selectNext, hr t]
  · have hemlen : (DecoderRNN.embeddingsOf d feats caps).length = feats.length := by
      simp [DecoderRNN.embeddingsOf, hcl]
    have hemw : ∀ em ∈ DecoderRNN.embeddingsOf d feats caps, em.length = T + 1 :=
      ems_width d.embed T feats caps hw
    have hinp : feats
        = (DecoderRNN.embeddingsOf d feats caps).map (fun em => em.getD 0 []) := by
      have h1 : (DecoderRNN.embeddingsOf d feats caps).map (fun em => em.getD 0 [])
          = (DecoderRNN.embeddingsOf d feats caps).map (fun em => em.headD []) :=
        List.map_congr_left (fun em _ => by cases em <;> rfl)
      rw [h1, DecoderRNN.embeddingsOf]
      exact (embeddings_head d.embed feats caps hcl).symm
    have hL : DecoderRNN.forward d feats caps T lengths none rand 1 "additive_sampled"
        = (loopB d "additive_sampled" 1 rand (DecoderRNN.embeddingsOf d feats caps)
            0 T feats (List.replicate feats.length d.s0)).map
          (fun outsT => packSteps lengths 0
            (outsT ++ [List.replicate feats.length (List.replicate d.vocabSize 0)])) := rfl
    have hR : DecoderRNN.forward d feats caps T lengths none rand 1 "always"
        = some (packSteps lengths 0 (timeMajor (T + 1)
            (List.zipWith
              (fun em pf => (lstmRun d.cell d.s0 (em.map (fun x => x ++ pf))).map d.linear)
              (DecoderRNN.embeddingsOf d feats caps)
              (List.replicate feats.length [])))) := rfl
    rw [hL, hR]
    rw [loopB_gt d rand _ hr T 0]
    rw [Option.map_some']
    congr 1
    rw [gtRun_eq d _ T 0 _ feats
      (by simp [hemlen])
      (by intro em hem; rw [hemw em hem]; omega)
      hinp]
    simp only [List.drop_zero]
    rw [zipWith_replicate_right _ d.s0 _ feats.length (le_of_eq hemlen),
      zipWith_replicate_right _ ([] : Vec) _ feats.length (le_of_eq hemlen)]
    simp only [List.append_nil, List.map_id']
    rw [timeMajor_snoc]
    rw [packSteps_append, packSteps_append]
    rw [timeMajor_length]
    simp only [packSteps, List.append_nil, Nat.zero_add]
    rw [packStep_past T lengths _ (fun l hl => hlen l hl),
      packStep_past T lengths _ (fun l hl => hlen l hl)]

/-- Witness for the amended C3 at a concrete decoder and a batch with no
persist features. -/
theorem claim_C3_witness :
    DecoderRNN.forward dU [[1]] [[0]] 1 [1] none (fun _ => 0) 1 "additive_sampled"
      = DecoderRNN.forward dU [[1]] [[0]] 1 [1] none (fun _ => 0) 1 "always" :=
  (claim_C3 dU [[1]] [[0]] 1 [1] (fun _ => 0) (by decide) (by decide)
    (by decide) (fun u => by norm_num)).2
